import Mathlib

set_option maxHeartbeats 1000000

/-!
Shallow embedding of the MuZero/AlphaZero self-play repository (sources
`Game.py`, `MuZero/MuNeuralNet.py`, `MuZero/MuCoach.py`) together with the
spec's model of the Monte Carlo Tree Search engine, and proofs of the spec's
claims about them.

Python floats are modelled as rationals where only structural facts matter and
as real numbers where the claim is about `log`, `sqrt` or real exponentiation;
machine integers are naturals; fallible code returns an explicit error value.
-/

/-! ### Data model: the documented Predictor interface (`MuZero/MuNeuralNet.py`) -/

/-- Embeds the documented interface of `MuZeroNeuralNet` (latent Predictor
variant): `initial_inference(observations) -> (s_0, pi, v)` combines the
representation and prediction models, `recurrent_inference(latent_state,
action) -> (r, s_(k+1), pi, v)` combines dynamics and prediction; every
returned policy `pi` is a vector of length `game.getActionSize()` and every
value `v` a scalar float. -/
structure MuZeroNeuralNet (Obs Latent : Type) (actionSize : ℕ) where
  initial_inference : Obs → Latent × List ℝ × ℝ
  recurrent_inference : Latent → ℕ → ℝ × Latent × List ℝ × ℝ
  initial_policy_length : ∀ o, (initial_inference o).2.1.length = actionSize
  recurrent_policy_length : ∀ s a, (recurrent_inference s a).2.2.1.length = actionSize

/-- A trivial inhabitant of the Predictor interface, showing the contract is
satisfiable. -/
def trivialNet : MuZeroNeuralNet Unit Unit 2 where
  initial_inference := fun _ => ((), [0, 0], 0)
  recurrent_inference := fun _ _ => (0, (), [0, 0], 0)
  initial_policy_length := fun _ => rfl
  recurrent_policy_length := fun _ _ => rfl

/-! ### Data model: the documented Game oracle (`Game.py`) -/

/-- The four qualitative outcomes distinguished by the docstring of
`Game.getGameEnded`. -/
inductive Outcome where
  | ongoing
  | win
  | loss
  | draw
deriving DecidableEq

/-- Embeds the docstring contract of `Game.getGameEnded`: the returned number
is `0` if the game has not ended, `1` if the player won, `-1` if the player
lost, and a small non-zero value (`drawValue`) for a draw. -/
def outcomeValue (drawValue : ℚ) : Outcome → ℚ
  | Outcome.ongoing => 0
  | Outcome.win => 1
  | Outcome.loss => -1
  | Outcome.draw => drawValue

/-- The terminal test of the Game oracle: a game-specific `status` decides the
qualitative outcome for `(state, player)` and `getGameEnded` reports it
numerically exactly as the docstring of `Game.getGameEnded` prescribes. -/
def getGameEnded {State Player : Type} (status : State → Player → Outcome)
    (drawValue : ℚ) (s : State) (p : Player) : ℚ :=
  outcomeValue drawValue (status s p)

/-- A concrete single-state game whose only outcome is a draw, used to
instantiate the terminal-test theorem. -/
def drawOnlyStatus : Unit → Unit → Outcome := fun _ _ => Outcome.draw

/-- Embeds the docstring contract of `Game.getNextState` for the direct-state
board-game variant: the call returns exactly the triple
`(nextState, reward, nextPlayer)`. The docstring fixes the triple's shape and
the spec fixes `reward = 0` for the direct-state variant; `move` and
`nextPlayer` abstract the game-specific rules. -/
def getNextState {State Player : Type} (move : State → ℕ → Player → State)
    (nextPlayer : Player → Player) (s : State) (a : ℕ) (p : Player) :
    State × ℚ × Player :=
  (move s a p, 0, nextPlayer p)

/-- Embeds the docstring of `Game.getCanonicalForm` via its own chess example:
the canonical form is chosen from the point of view of player 1; for player 1
the state is returned as is, for player -1 the colors are inverted. States are
modelled as integer piece assignments and color inversion as negation. -/
def getCanonicalForm (board : List ℤ) (player : ℤ) : List ℤ :=
  if player = 1 then board else board.map (fun x => -x)

/-! ### Checkpoint loading (`MuZeroNeuralNet.load_checkpoint`) -/

/-- One filesystem action performed by `load_checkpoint`: an `os.path.exists`
check or a `load_weights` call. -/
inductive FsEvent where
  | check (path : String)
  | load (path : String)
deriving DecidableEq

/-- Embeds `MuZeroNeuralNet.load_checkpoint`. `pathExists` models
`os.path.exists` and the result is the ordered list of filesystem events that
the method performs, together with `some message` when it raises
`FileNotFoundError` (and `none` when it returns normally). The three
existence checks appear in source order, and all of them precede the three
`load_weights` calls, exactly as in the Python body. -/
def load_checkpoint (pathExists : String → Bool) (folder filename : String) :
    List FsEvent × Option String :=
  let representation_path := folder ++ "/" ++ ("r_" ++ filename)
  let dynamics_path := folder ++ "/" ++ ("d_" ++ filename)
  let predictor_path := folder ++ "/" ++ ("p_" ++ filename)
  if pathExists representation_path = false then
    ([FsEvent.check representation_path],
      some ("No MuZero Representation Model in path " ++ representation_path))
  else if pathExists dynamics_path = false then
    ([FsEvent.check representation_path, FsEvent.check dynamics_path],
      some ("No MuZero Dynamics Model in path " ++ dynamics_path))
  else if pathExists predictor_path = false then
    ([FsEvent.check representation_path, FsEvent.check dynamics_path,
      FsEvent.check predictor_path],
      some ("No MuZero Predictor Model in path " ++ predictor_path))
  else
    ([FsEvent.check representation_path, FsEvent.check dynamics_path,
      FsEvent.check predictor_path, FsEvent.load representation_path,
      FsEvent.load dynamics_path, FsEvent.load predictor_path], none)

/-- An empty filesystem, used to instantiate the checkpoint theorem. -/
def noFiles : String → Bool := fun _ => false

/-! ### Loss function (`MuZeroNeuralNet.loss_function`) -/

/-- Embeds `self.fit_rewards = (game.n_players == 1)` from
`MuZeroNeuralNet.__init__`. -/
def fit_rewards (nPlayers : ℕ) : Bool := nPlayers == 1

/-- Embeds the reward-loss term of `MuZeroNeuralNet.loss_function`:
`r_loss = scalar_loss(rs, t_rs) if (k > 0 and self.fit_rewards) else
tf.constant(0)`, where `k` ranges over the root step `0` and the `K`
hypothetical forward steps. `scalarLoss` abstracts `scalar_loss`. -/
def rLossTerm (scalarLoss : ℚ → ℚ → ℚ) (nPlayers k : ℕ) (r tr : ℚ) : ℚ :=
  if 0 < k ∧ fit_rewards nPlayers = true then scalarLoss r tr else 0

/-- Embeds the per-step loss of `loss_function`:
`step_loss = (r_loss + v_loss + pi_loss)` with `v_loss = scalar_loss(vs, t_vs)`
and `pi_loss = scalar_loss(pis, t_pis) * (1.0 - absorb)`; the policy term is
abstracted to its per-step value `piLoss k` since the claim concerns only the
reward head. -/
def stepLoss (scalarLoss : ℚ → ℚ → ℚ) (nPlayers k : ℕ) (rs trs vs tvs : ℕ → ℚ)
    (piLoss : ℕ → ℚ) : ℚ :=
  rLossTerm scalarLoss nPlayers k (rs k) (trs k) + scalarLoss (vs k) (tvs k) + piLoss k

/-- Embeds the accumulation of `loss_function` over the root and the `K`
forward steps (forward values only: `scale_gradient` is the identity on the
forward value, and the per-sample weight `w` multiplies each step's loss); the
final `l2` summand embeds `self.net_args.l2 * l2_norm`. -/
def totalLoss (scalarLoss : ℚ → ℚ → ℚ) (nPlayers K : ℕ) (rs trs vs tvs : ℕ → ℚ)
    (piLoss : ℕ → ℚ) (w l2 : ℚ) : ℚ :=
  (∑ k in Finset.range (K + 1), stepLoss scalarLoss nPlayers k rs trs vs tvs piLoss * w) + l2

/-! ### Training target construction (`MuZeroCoach.buildHypotheticalSteps`) -/

/-- One self-play episode as recorded by a `GameHistory`: per-step actions,
MCTS move probabilities, observed returns (value targets) and rewards; the
four trajectories all have the episode's length. -/
structure GameHistory where
  actions : List ℕ
  probabilities : List (List ℚ)
  observed_returns : List ℚ
  rewards : List ℚ

/-- The Python list slice `l[t : t + k]`. -/
def pySlice {α : Type} (l : List α) (t k : ℕ) : List α := (l.drop t).take k

/-- The action slice of `buildHypotheticalSteps`:
`actions = history.actions[t:t+k]`, extended by
`np.random.randint(actionSize, size=a_truncation)` — modelled by the draws
`pad 0, pad 1, ...` — when the slice is shorter than `k` (unrolling beyond the
terminal state). -/
def paddedActions (pad : ℕ → ℕ) (history : GameHistory) (t k : ℕ) : List ℕ :=
  pySlice history.actions t k ++
    (List.range (k - (pySlice history.actions t k).length)).map pad

/-- The one-hot matrix `enc_actions` of `buildHypotheticalSteps`, built
entry-wise: row `i` carries a single 1 in column `actions[i]`, exactly the
scatter assignment `enc_actions[np.arange(len(actions)), actions] = 1` applied
to `np.zeros([k, actionSize])` (rows beyond the scatter range would stay
all-zero, hence the out-of-range default `actionSize`). -/
def encActions (actionSize : ℕ) (pad : ℕ → ℕ) (history : GameHistory) (t k : ℕ) :
    List (List ℕ) :=
  (List.range k).map (fun i =>
    (List.range actionSize).map
      (fun j => if (paddedActions pad history t k).getD i actionSize = j then 1 else 0))

/-- The target truncation `t_truncation = (k + 1) - len(pis)` of
`buildHypotheticalSteps`, positive exactly when the unroll crosses the
terminal state. -/
def tTruncation (history : GameHistory) (t k : ℕ) : ℕ :=
  (k + 1) - (pySlice history.probabilities t (k + 1)).length

/-- Embeds `MuZeroCoach.buildHypotheticalSteps` (without the optional
`obs_trajectory`, which is outside the claims): the one-hot action matrix and
the targets `(vs, rewards, pis)`, each target sliced as `l[t : t+k+1]` and,
past the terminal state, padded with `0` (values) and with the slice's last
element `l[-1] = l[len(l) - 1]` (rewards and policies), treating the last
state as absorbing. -/
def buildHypotheticalSteps (actionSize : ℕ) (pad : ℕ → ℕ) (history : GameHistory)
    (t k : ℕ) : List (List ℕ) × (List ℚ × List ℚ × List (List ℚ)) :=
  (encActions actionSize pad history t k,
    (pySlice history.observed_returns t (k + 1) ++
       List.replicate (tTruncation history t k) 0,
     pySlice history.rewards t (k + 1) ++
       List.replicate (tTruncation history t k)
         ((pySlice history.rewards t (k + 1)).getD
           ((pySlice history.rewards t (k + 1)).length - 1) 0),
     pySlice history.probabilities t (k + 1) ++
       List.replicate (tTruncation history t k)
         ((pySlice history.probabilities t (k + 1)).getD
           ((pySlice history.probabilities t (k + 1)).length - 1) [])))

/-- A concrete one-step episode used to instantiate the target-construction
theorem. -/
def sampleHistory : GameHistory where
  actions := [0]
  probabilities := [[1, 0]]
  observed_returns := [5]
  rewards := [3]

/-! ### Search engine: selection score and policy extraction
(the MCTS module `MuZero/MuMCTS.py` is imported by `MuCoach.py` but is not
among the provided sources, so these are modelled from the spec). -/

/-- Modelled from the spec: the visit-count-adaptive exploration coefficient
of the missing MCTS module, `c(s) = log((N(s) + c_base + 1) / c_base) +
c_init`, where `N` is the parent's visit count. -/
noncomputable def explorationCoefficient (cBase cInit : ℝ) (N : ℕ) : ℝ :=
  Real.log (((N : ℝ) + cBase + 1) / cBase) + cInit

/-- Modelled from the spec: the selection score of the missing MCTS module,
`score(s,a) = Q(s,a) + c(s) * P(s,a) * sqrt(N(s)) / (1 + N(s,a))`; the visit
counts `N` (parent) and `Nsa` (child edge) are naturals, so the denominator is
the exact code expression. -/
noncomputable def selectionScore (cBase cInit Q P : ℝ) (N Nsa : ℕ) : ℝ :=
  Q + explorationCoefficient cBase cInit N * P * Real.sqrt (N : ℝ) / (1 + (Nsa : ℝ))

/-- Modelled from the spec: the unnormalized weight `N(root,a)^(1/temperature)`
that Policy Extraction assigns to an action with root visit count `n`
(real exponentiation, so `0 ^ (1/t) = 0` for `t > 0`). -/
noncomputable def visitWeight (t : ℝ) (n : ℕ) : ℝ := (n : ℝ) ^ (1 / t)

/-- Modelled from the spec: Policy Extraction of the missing MCTS module at
positive temperature, `pi(a) = N(root,a)^(1/t) / sum_b N(root,b)^(1/t)` over
the per-action root visit counts. -/
noncomputable def extractPolicy (counts : List ℕ) (t : ℝ) : List ℝ :=
  counts.map (fun n => visitWeight t n / (counts.map (visitWeight t)).sum)

/-- Modelled from the spec: the lowest index of a maximal element of `counts`
(deterministic tie-breaking by lowest action index). -/
def argmaxIdx : List ℕ → ℕ
  | [] => 0
  | a :: rest => if a < rest.getD (argmaxIdx rest) 0 then argmaxIdx rest + 1 else 0

/-- Modelled from the spec: at temperature 0, Policy Extraction collapses to
the one-hot vector on the action with maximal root visit count, ties broken by
lowest action index. -/
noncomputable def extractPolicyGreedy (counts : List ℕ) : List ℝ :=
  (List.range counts.length).map (fun i => if i = argmaxIdx counts then 1 else 0)

/-- Modelled from the spec: the static data of one search call of the missing
MCTS module. Nodes are addressed by their action path from the root;
`arity q` is the number of children created when node `q` is expanded and
`terminal q` says whether the game state reached at `q` is terminal. -/
structure SearchParams where
  arity : List ℕ → ℕ
  terminal : List ℕ → Bool

/-- Modelled from the spec: the mutable per-node statistics of the search
tree — the visit count `N` and the expansion flag of every node, addressed by
action path. -/
structure SearchState where
  visit : List ℕ → ℕ
  expanded : List ℕ → Bool

/-- Modelled from the spec: the tree at the start of a search call — the root
is expanded (its expansion precedes the simulation loop) and every visit
count is zero. -/
def initState : SearchState where
  visit := fun _ => 0
  expanded := fun q => q.isEmpty

/-- `isInit q p`: the node `q` is an initial segment of the action path `p`,
i.e. `q` lies on the root-to-`p` path. -/
def isInit : List ℕ → List ℕ → Bool
  | [], _ => true
  | _ :: _, [] => false
  | a :: q, b :: p => a == b && isInit q p

/-- Modelled from the spec: a valid selection path. `validFrom P s q p` holds
when, starting at node `q`, the selection rule may descend along `p`: every
interior node (including `q`) is already expanded, every step picks one of
the node's children, and the final node is not yet expanded — it is the
simulation's leaf, to be expanded or, if terminal, merely evaluated. -/
def validFrom (P : SearchParams) (s : SearchState) : List ℕ → List ℕ → Bool
  | q, [] => !s.expanded q
  | q, i :: rest =>
    s.expanded q && decide (i < P.arity q) && validFrom P s (q ++ [i]) rest

/-- Modelled from the spec: the effect on the tree statistics of one
completed simulation with selection path `p`. Backup increments the visit
count of every node on the path, root and leaf included; expansion marks the
leaf expanded unless it is terminal (a terminal leaf is evaluated by the game
oracle and stays unexpanded). Children created at expansion carry zero visits
and are unexpanded, which the state already assigns to every untouched
node. -/
def simulate (P : SearchParams) (s : SearchState) (p : List ℕ) : SearchState where
  visit := fun q => if isInit q p then s.visit q + 1 else s.visit q
  expanded := fun q => if q = p ∧ P.terminal p = false then true else s.expanded q

/-- Modelled from the spec: `SearchRun P s ps s'` — starting from tree state
`s`, completed simulations along the selection paths `ps`, each valid in the
state in which it is taken, produce tree state `s'`. -/
inductive SearchRun (P : SearchParams) : SearchState → List (List ℕ) → SearchState → Prop
  | nil (s : SearchState) : SearchRun P s [] s
  | cons (s : SearchState) (p : List ℕ) (ps : List (List ℕ)) (s' : SearchState)
      (hp : validFrom P s [] p = true) (hrun : SearchRun P (simulate P s p) ps s') :
      SearchRun P s (p :: ps) s'

/-- The visit-count invariant of the spec together with the bookkeeping that
makes it inductive: the root's count equals the number of completed
simulations; every expanded non-root node counts its own initializing visit
plus its children's counts; a non-terminal unexpanded node is unvisited; and
nothing strictly below an unexpanded node has ever been touched. -/
def VisitInv (P : SearchParams) (s : SearchState) (n : ℕ) : Prop :=
  s.visit [] = n ∧
  s.expanded [] = true ∧
  (∀ q : List ℕ, q ≠ [] → s.expanded q = true →
    s.visit q = 1 + ∑ i in Finset.range (P.arity q), s.visit (q ++ [i])) ∧
  (∀ q : List ℕ, s.expanded q = false → P.terminal q = false → s.visit q = 0) ∧
  (∀ q r : List ℕ, s.expanded q = false → isInit q r = true → q ≠ r →
    s.visit r = 0 ∧ s.expanded r = false)

/-- A concrete search setting — binary trees, no terminal states — used to
instantiate the visit-count theorem. -/
def binaryParams : SearchParams where
  arity := fun _ => 2
  terminal := fun _ => false

/-! ### Theorems -/

/-- The index returned by `argmaxIdx` is within bounds for nonempty input. -/
theorem argmaxIdx_lt_length : ∀ l : List ℕ, l ≠ [] → argmaxIdx l < l.length
  | [], h => absurd rfl h
  | a :: rest, _ => by
    unfold argmaxIdx
    by_cases hlt : a < rest.getD (argmaxIdx rest) 0
    · have hne : rest ≠ [] := by
        intro h
        subst h
        simp [argmaxIdx] at hlt
      simp only [if_pos hlt, List.length_cons]
      exact Nat.succ_lt_succ (argmaxIdx_lt_length rest hne)
    · rw [if_neg hlt]
      exact Nat.succ_pos _

/-- Every entry of `counts` is bounded by the entry at `argmaxIdx`. -/
theorem getD_le_argmaxIdx : ∀ (l : List ℕ) (j : ℕ),
    l.getD j 0 ≤ l.getD (argmaxIdx l) 0
  | [], j => by simp
  | a :: rest, j => by
    unfold argmaxIdx
    by_cases hlt : a < rest.getD (argmaxIdx rest) 0
    · simp only [if_pos hlt]
      cases j with
      | zero => exact Nat.le_of_lt hlt
      | succ j => exact getD_le_argmaxIdx rest j
    · simp only [if_neg hlt]
      cases j with
      | zero => exact Nat.le_refl a
      | succ j =>
        exact Nat.le_trans (getD_le_argmaxIdx rest j) (Nat.le_of_not_lt hlt)

/-- Entries strictly before `argmaxIdx` are strictly below the maximum:
`argmaxIdx` breaks ties by the lowest index. -/
theorem getD_lt_of_lt_argmaxIdx : ∀ (l : List ℕ) (j : ℕ), j < argmaxIdx l →
    l.getD j 0 < l.getD (argmaxIdx l) 0
  | [], j => by simp [argmaxIdx]
  | a :: rest, j => by
    unfold argmaxIdx
    by_cases hlt : a < rest.getD (argmaxIdx rest) 0
    · simp only [if_pos hlt]
      intro hj
      cases j with
      | zero => exact hlt
      | succ j => exact getD_lt_of_lt_argmaxIdx rest j (Nat.lt_of_succ_lt_succ hj)
    · rw [if_neg hlt]
      intro hj
      exact absurd hj (Nat.not_lt_zero j)

/-- Sum of a mapped division is the division of the mapped sum. -/
theorem list_sum_map_div (l : List ℕ) (f : ℕ → ℝ) (d : ℝ) :
    (l.map (fun n => f n / d)).sum = (l.map f).sum / d := by
  induction l with
  | nil => simp
  | cons a l ih => simp [ih, add_div]

/-- The visit weight vanishes exactly on unvisited actions. -/
theorem visitWeight_eq_zero_iff (t : ℝ) (ht : 0 < t) (n : ℕ) :
    visitWeight t n = 0 ↔ n = 0 := by
  unfold visitWeight
  constructor
  · intro h
    by_contra hn
    have hpos : (0 : ℝ) < (n : ℝ) := by
      exact_mod_cast Nat.pos_of_ne_zero hn
    exact absurd h (ne_of_gt (Real.rpow_pos_of_pos hpos (1 / t)))
  · intro h
    subst h
    simp only [Nat.cast_zero]
    exact Real.zero_rpow (one_div_ne_zero (ne_of_gt ht))

/-- The visit weight is nonnegative. -/
theorem visitWeight_nonneg (t : ℝ) (n : ℕ) : 0 ≤ visitWeight t n :=
  Real.rpow_nonneg (Nat.cast_nonneg n) (1 / t)

/-- With at least one visited action the total visit weight is positive. -/
theorem visitWeight_sum_pos (counts : List ℕ) (t : ℝ) (ht : 0 < t) (c : ℕ)
    (hc : c ∈ counts) (hcpos : 0 < c) :
    0 < (counts.map (visitWeight t)).sum := by
  have hmem : visitWeight t c ∈ counts.map (visitWeight t) :=
    List.mem_map_of_mem (visitWeight t) hc
  have hwpos : 0 < visitWeight t c := by
    have := (visitWeight_eq_zero_iff t ht c).not
    rcases lt_or_eq_of_le (visitWeight_nonneg t c) with h | h
    · exact h
    · exact absurd h.symm (by simpa [Nat.pos_iff_ne_zero.mp hcpos] using this)
  calc (0 : ℝ) < visitWeight t c := hwpos
    _ ≤ (counts.map (visitWeight t)).sum :=
        List.single_le_sum (fun x hx => by
          rcases List.mem_map.mp hx with ⟨m, _, rfl⟩
          exact visitWeight_nonneg t m) _ hmem

/-- `getD` through a `map`, in the form needed below. -/
theorem getD_map_eq (l : List ℕ) (g : ℕ → ℝ) (i : ℕ) (hi : i < l.length) :
    (l.map g).getD i 0 = g (l.getD i 0) := by
  rw [List.getD_eq_getElem?_getD, List.getD_eq_getElem?_getD,
    List.getElem?_eq_getElem (by simpa using hi), List.getElem?_eq_getElem hi]
  simp

/-- `getD` beyond the length of a mapped list agrees with mapping the
default, when the function sends the default to the default. -/
theorem getD_map_eq_of_le (l : List ℕ) (g : ℕ → ℝ) (i : ℕ) (hi : l.length ≤ i)
    (hg : g 0 = 0) : (l.map g).getD i 0 = g (l.getD i 0) := by
  rw [List.getD_eq_getElem?_getD, List.getD_eq_getElem?_getD,
    List.getElem?_eq_none (by simpa using hi), List.getElem?_eq_none hi]
  simp [hg]

/-- **C1.** For the latent Predictor variant, `initial_inference` maps an
observation to exactly the triple `(latent_state, policy, value)` and
`recurrent_inference` maps a `(latent_state, action)` pair to exactly the
quadruple `(reward, next_latent_state, policy, value)`, in those orders, with
each policy a vector of length `getActionSize()` and each value a scalar. -/
theorem inference_shapes {Obs Latent : Type} {actionSize : ℕ}
    (net : MuZeroNeuralNet Obs Latent actionSize) (o : Obs) (s : Latent) (a : ℕ) :
    (∃ latent policy value, net.initial_inference o = (latent, policy, value) ∧
      policy.length = actionSize) ∧
    (∃ reward latent policy value,
      net.recurrent_inference s a = (reward, latent, policy, value) ∧
      policy.length = actionSize) :=
  ⟨⟨(net.initial_inference o).1, (net.initial_inference o).2.1,
    (net.initial_inference o).2.2, rfl, net.initial_policy_length o⟩,
   ⟨(net.recurrent_inference s a).1, (net.recurrent_inference s a).2.1,
    (net.recurrent_inference s a).2.2.1, (net.recurrent_inference s a).2.2.2,
    rfl, net.recurrent_policy_length s a⟩⟩

/-- Instantiation of `inference_shapes` at a concrete Predictor. -/
theorem inference_shapes_witness :
    (∃ latent policy value, trivialNet.initial_inference () = (latent, policy, value) ∧
      policy.length = 2) ∧
    (∃ reward latent policy value,
      trivialNet.recurrent_inference () 0 = (reward, latent, policy, value) ∧
      policy.length = 2) :=
  inference_shapes trivialNet () () 0

/-- **C5.** For every state and player, the Game oracle's terminal test
(`getGameEnded`) returns `0` if and only if the game is ongoing, `1` if the
given player has won, `-1` if the given player has lost, and a small non-zero
value for a draw. -/
theorem getGameEnded_spec {State Player : Type} (status : State → Player → Outcome)
    (drawValue : ℚ) (hne : drawValue ≠ 0) (hsmall : |drawValue| < 1)
    (s : State) (p : Player) :
    (getGameEnded status drawValue s p = 0 ↔ status s p = Outcome.ongoing) ∧
    (status s p = Outcome.win → getGameEnded status drawValue s p = 1) ∧
    (status s p = Outcome.loss → getGameEnded status drawValue s p = -1) ∧
    (status s p = Outcome.draw →
      getGameEnded status drawValue s p ≠ 0 ∧ |getGameEnded status drawValue s p| < 1) := by
  unfold getGameEnded
  cases h : status s p <;>
    simp [outcomeValue, hne, hsmall]

/-- Instantiation of `getGameEnded_spec` at a concrete draw-only game with
draw value `1/2`. -/
theorem getGameEnded_spec_witness :
    (getGameEnded drawOnlyStatus (1/2) () () = 0 ↔ drawOnlyStatus () () = Outcome.ongoing) ∧
    (drawOnlyStatus () () = Outcome.win → getGameEnded drawOnlyStatus (1/2) () () = 1) ∧
    (drawOnlyStatus () () = Outcome.loss → getGameEnded drawOnlyStatus (1/2) () () = -1) ∧
    (drawOnlyStatus () () = Outcome.draw →
      getGameEnded drawOnlyStatus (1/2) () () ≠ 0 ∧
      |getGameEnded drawOnlyStatus (1/2) () ()| < 1) :=
  getGameEnded_spec drawOnlyStatus (1/2) (by norm_num) (by rw [abs_of_pos] <;> norm_num) () ()

/-- **C6.** For every state, action and player, the Game oracle's transition
(`getNextState`) returns exactly the triple `(next_state, reward, next_player)`
and the immediate reward component is `0` in the direct-state board-game
variant. -/
theorem getNextState_spec {State Player : Type} (move : State → ℕ → Player → State)
    (nextPlayer : Player → Player) (s : State) (a : ℕ) (p : Player) :
    getNextState move nextPlayer s a p = (move s a p, 0, nextPlayer p) ∧
    (getNextState move nextPlayer s a p).2.1 = 0 :=
  ⟨rfl, rfl⟩

/-- Instantiation of `getNextState_spec` at a concrete accumulator game. -/
theorem getNextState_spec_witness :
    getNextState (fun (s : ℕ) (a : ℕ) (_ : ℤ) => s + a) (fun p => -p) 3 2 1 =
      (3 + 2, 0, -(1 : ℤ)) ∧
    (getNextState (fun (s : ℕ) (a : ℕ) (_ : ℤ) => s + a) (fun p => -p) 3 2 1).2.1 = 0 :=
  getNextState_spec (fun s a _ => s + a) (fun p => -p) 3 2 1

/-- **C7 (counterexample).** Two runs differing only in the player argument do
not in general canonicalize to the same representation: on the docstring's own
chess model, the identity predictor evaluated after canonicalization
distinguishes `(board, 1)` from `(board, -1)`. -/
theorem canonical_player_counterexample :
    getCanonicalForm [1] 1 ≠ getCanonicalForm [1] (-1) := by
  decide

/-- **C7 (amended).** Canonicalization removes the player's perspective: a
position presented as board `b` by player 1 and as the color-inverted board by
player -1 canonicalizes to the same representation, hence the neural network,
which evaluates only canonical forms, produces the same evaluation on two such
runs that differ only in which player is to move. -/
theorem canonical_perspective_independent {Out : Type} (net : List ℤ → Out)
    (b : List ℤ) :
    getCanonicalForm b 1 = getCanonicalForm (b.map (fun x => -x)) (-1) ∧
    net (getCanonicalForm b 1) = net (getCanonicalForm (b.map (fun x => -x)) (-1)) := by
  have h : getCanonicalForm b 1 = getCanonicalForm (b.map (fun x => -x)) (-1) := by
    simp [getCanonicalForm, List.map_map, Function.comp_def]
  exact ⟨h, congrArg net h⟩

/-- Instantiation of `canonical_perspective_independent` at a concrete board
and the summing predictor. -/
theorem canonical_perspective_independent_witness :
    getCanonicalForm [1, -2] 1 = getCanonicalForm ([1, -2].map (fun x => -x)) (-1) ∧
    List.sum (getCanonicalForm [1, -2] 1) =
      List.sum (getCanonicalForm ([1, -2].map (fun x => -x)) (-1)) :=
  canonical_perspective_independent List.sum [1, -2]

/-- **C9.** `load_checkpoint` raises `FileNotFoundError` if and only if at
least one of the three weight files (prefixed `r_`, `d_`, `p_` in the given
folder) does not exist, and all three existence checks are performed before
any weights are loaded, so whenever it raises, none of the encoder, dynamics
or predictor weights have been modified (the event trace of a raising call
contains no `load` event). -/
theorem load_checkpoint_spec (pathExists : String → Bool) (folder filename : String) :
    ((load_checkpoint pathExists folder filename).2 ≠ none ↔
      (pathExists (folder ++ "/" ++ ("r_" ++ filename)) = false ∨
       pathExists (folder ++ "/" ++ ("d_" ++ filename)) = false ∨
       pathExists (folder ++ "/" ++ ("p_" ++ filename)) = false)) ∧
    ((load_checkpoint pathExists folder filename).2 ≠ none →
      ∀ e ∈ (load_checkpoint pathExists folder filename).1, ∀ q, e ≠ FsEvent.load q) := by
  cases hr : pathExists (folder ++ "/" ++ ("r_" ++ filename)) <;>
    cases hd : pathExists (folder ++ "/" ++ ("d_" ++ filename)) <;>
      cases hp : pathExists (folder ++ "/" ++ ("p_" ++ filename)) <;>
        simp [load_checkpoint, hr, hd, hp]

/-- Instantiation of `load_checkpoint_spec` on an empty filesystem: the call
raises, and its event trace contains no weight load. -/
theorem load_checkpoint_spec_witness :
    ((load_checkpoint noFiles "checkpoint" "checkpoint.pth.tar").2 ≠ none ↔
      (noFiles ("checkpoint" ++ "/" ++ ("r_" ++ "checkpoint.pth.tar")) = false ∨
       noFiles ("checkpoint" ++ "/" ++ ("d_" ++ "checkpoint.pth.tar")) = false ∨
       noFiles ("checkpoint" ++ "/" ++ ("p_" ++ "checkpoint.pth.tar")) = false)) ∧
    ((load_checkpoint noFiles "checkpoint" "checkpoint.pth.tar").2 ≠ none →
      ∀ e ∈ (load_checkpoint noFiles "checkpoint" "checkpoint.pth.tar").1,
        ∀ q, e ≠ FsEvent.load q) :=
  load_checkpoint_spec noFiles "checkpoint" "checkpoint.pth.tar"

/-- **C10.** In `loss_function` the reward loss term is the constant `0` at
the root prediction step (`k = 0`) for every input, and equals
`scalar_loss(rs, t_rs)` exactly when the game is single-player and `k ≥ 1`;
hence the reward head contributes to the total loss only for single-player
games and only at unroll steps `k ≥ 1`. -/
theorem reward_loss_spec (scalarLoss : ℚ → ℚ → ℚ) (nPlayers K k : ℕ)
    (rs trs vs tvs piLoss : ℕ → ℚ) (w l2 : ℚ) :
    rLossTerm scalarLoss nPlayers 0 (rs 0) (trs 0) = 0 ∧
    rLossTerm scalarLoss nPlayers k (rs k) (trs k) =
      (if nPlayers = 1 ∧ 1 ≤ k then scalarLoss (rs k) (trs k) else 0) ∧
    totalLoss scalarLoss nPlayers K rs trs vs tvs piLoss w l2 =
      (∑ j in Finset.range (K + 1),
        ((if nPlayers = 1 ∧ 1 ≤ j then scalarLoss (rs j) (trs j) else 0) +
          scalarLoss (vs j) (tvs j) + piLoss j) * w) + l2 := by
  have hterm : ∀ j, rLossTerm scalarLoss nPlayers j (rs j) (trs j) =
      (if nPlayers = 1 ∧ 1 ≤ j then scalarLoss (rs j) (trs j) else 0) := by
    intro j
    unfold rLossTerm fit_rewards
    by_cases h1 : nPlayers = 1 <;> by_cases h2 : 1 ≤ j <;>
      simp [h1, h2, Nat.lt_iff_add_one_le]
  refine ⟨?_, hterm k, ?_⟩
  · simp [rLossTerm]
  · unfold totalLoss stepLoss
    refine congrArg (fun x => x + l2) (Finset.sum_congr rfl ?_)
    intro j _
    rw [hterm j]

/-- Instantiation of `reward_loss_spec` at concrete arguments. -/
theorem reward_loss_spec_witness :
    rLossTerm (fun r tr => (r - tr) ^ 2) 2 0 ((fun _ => (3 : ℚ)) 0) ((fun _ => (1 : ℚ)) 0) = 0 ∧
    rLossTerm (fun r tr => (r - tr) ^ 2) 2 1 ((fun _ => (3 : ℚ)) 1) ((fun _ => (1 : ℚ)) 1) =
      (if (2 = 1 ∧ 1 ≤ 1) then ((fun _ => (3 : ℚ)) 1 - (fun _ => (1 : ℚ)) 1) ^ 2 else 0) ∧
    totalLoss (fun r tr => (r - tr) ^ 2) 2 1 (fun _ => 3) (fun _ => 1) (fun _ => 0)
        (fun _ => 0) (fun _ => 0) 1 0 =
      (∑ j in Finset.range (1 + 1),
        ((if (2 = 1 ∧ 1 ≤ j) then ((fun _ => (3 : ℚ)) j - (fun _ => (1 : ℚ)) j) ^ 2 else 0) +
          ((fun _ => (0 : ℚ)) j - (fun _ => (0 : ℚ)) j) ^ 2 + (fun _ => (0 : ℚ)) j) * 1) + 0 :=
  reward_loss_spec (fun r tr => (r - tr) ^ 2) 2 1 1 (fun _ => 3) (fun _ => 1)
    (fun _ => 0) (fun _ => 0) (fun _ => 0) 1 0

/-- `getD` within the bounds of a mapped `List.range`. -/
theorem getD_range_map (m : ℕ) (f : ℕ → ℝ) (j : ℕ) (hj : j < m) :
    ((List.range m).map f).getD j 0 = f j := by
  rw [List.getD_eq_getElem?_getD, List.getElem?_eq_getElem (by simpa using hj)]
  simp

/-- `getD` beyond the bounds of a mapped `List.range` is the default. -/
theorem getD_range_map_of_le (m : ℕ) (f : ℕ → ℝ) (j : ℕ) (hj : m ≤ j) :
    ((List.range m).map f).getD j 0 = 0 := by
  rw [List.getD_eq_getElem?_getD, List.getElem?_eq_none (by simpa using hj)]
  rfl

/-- **C3.** For every node and candidate action, the selection score equals
`Q(s,a) + c(s) * P(s,a) * sqrt(N(s)) / (1 + N(s,a))` with
`c(s) = log((N(s) + c_base + 1) / c_base) + c_init`; the denominator
`1 + N(s,a)` is strictly positive, so computing the score never divides by
zero, and for an unvisited child (`N(s,a) = 0`, `Q` taken as `0`) the score is
exactly `c(s) * P(s,a) * sqrt(N(s))`. -/
theorem selection_score_spec (cBase cInit Q P : ℝ) (N Nsa : ℕ) :
    selectionScore cBase cInit Q P N Nsa =
      Q + (Real.log (((N : ℝ) + cBase + 1) / cBase) + cInit) * P * Real.sqrt (N : ℝ) /
        (1 + (Nsa : ℝ)) ∧
    (0 : ℝ) < 1 + (Nsa : ℝ) ∧
    selectionScore cBase cInit 0 P N 0 =
      explorationCoefficient cBase cInit N * P * Real.sqrt (N : ℝ) := by
  refine ⟨rfl, by positivity, ?_⟩
  simp [selectionScore]

/-- Instantiation of `selection_score_spec` at the spec's default constants
and an unvisited edge. -/
theorem selection_score_spec_witness :
    selectionScore 19652 1.25 0 0.9 4 0 =
      0 + (Real.log (((4 : ℕ) + 19652 + 1) / 19652) + 1.25) * 0.9 *
        Real.sqrt ((4 : ℕ) : ℝ) / (1 + ((0 : ℕ) : ℝ)) ∧
    (0 : ℝ) < 1 + ((0 : ℕ) : ℝ) ∧
    selectionScore 19652 1.25 0 0.9 4 0 =
      explorationCoefficient 19652 1.25 4 * 0.9 * Real.sqrt ((4 : ℕ) : ℝ) :=
  selection_score_spec 19652 1.25 0 0.9 4 0

/-- **C4.** For every root with at least one visited child and every
temperature `t > 0`, Policy Extraction returns a vector proportional to
`N(root,a)^(1/t)` (with positive proportionality constant, the total weight)
that sums to 1 and is zero exactly on the actions with zero root visit count;
and the temperature-0 extraction is the one-hot vector on the action with
maximal visit count, ties broken by lowest action index. -/
theorem policy_extraction_spec (counts : List ℕ) (t : ℝ) (c : ℕ) (ht : 0 < t)
    (hc : c ∈ counts) (hcpos : 0 < c) :
    (extractPolicy counts t).sum = 1 ∧
    (∀ i, ((extractPolicy counts t).getD i 0 = 0 ↔ counts.getD i 0 = 0)) ∧
    (∃ Z, 0 < Z ∧ ∀ i, (extractPolicy counts t).getD i 0 =
      visitWeight t (counts.getD i 0) / Z) ∧
    (extractPolicyGreedy counts).getD (argmaxIdx counts) 0 = 1 ∧
    (∀ j, j ≠ argmaxIdx counts → (extractPolicyGreedy counts).getD j 0 = 0) ∧
    (∀ j, counts.getD j 0 ≤ counts.getD (argmaxIdx counts) 0) ∧
    (∀ j, j < argmaxIdx counts → counts.getD j 0 < counts.getD (argmaxIdx counts) 0) := by
  have hS : 0 < (counts.map (visitWeight t)).sum :=
    visitWeight_sum_pos counts t ht c hc hcpos
  have hzero : visitWeight t 0 / (counts.map (visitWeight t)).sum = 0 := by
    rw [(visitWeight_eq_zero_iff t ht 0).mpr rfl, zero_div]
  have hgd : ∀ i, (extractPolicy counts t).getD i 0 =
      visitWeight t (counts.getD i 0) / (counts.map (visitWeight t)).sum := by
    intro i
    unfold extractPolicy
    rcases lt_or_le i counts.length with hi | hi
    · exact getD_map_eq counts _ i hi
    · exact getD_map_eq_of_le counts _ i hi hzero
  have hlen : counts ≠ [] := List.ne_nil_of_mem hc
  have hargmax : argmaxIdx counts < counts.length := argmaxIdx_lt_length counts hlen
  refine ⟨?_, ?_, ?_, ?_, ?_, fun j => getD_le_argmaxIdx counts j,
    fun j hj => getD_lt_of_lt_argmaxIdx counts j hj⟩
  · unfold extractPolicy
    rw [list_sum_map_div counts (visitWeight t) _]
    exact div_self (ne_of_gt hS)
  · intro i
    rw [hgd i, div_eq_zero_iff]
    constructor
    · intro h
      rcases h with h | h
      · exact (visitWeight_eq_zero_iff t ht _).mp h
      · exact absurd h (ne_of_gt hS)
    · intro h
      exact Or.inl ((visitWeight_eq_zero_iff t ht _).mpr h)
  · exact ⟨(counts.map (visitWeight t)).sum, hS, hgd⟩
  · unfold extractPolicyGreedy
    rw [getD_range_map counts.length _ _ hargmax]
    simp
  · intro j hj
    unfold extractPolicyGreedy
    rcases lt_or_le j counts.length with hjl | hjl
    · rw [getD_range_map counts.length _ _ hjl, if_neg hj]
    · exact getD_range_map_of_le counts.length _ j hjl

/-- Instantiation of `policy_extraction_spec` at root visit counts
`[0, 2, 2]` and temperature 1: the extracted policy sums to 1 and the
temperature-0 extraction puts mass 1 on the first maximal-visit action. -/
theorem policy_extraction_spec_witness :
    (extractPolicy [0, 2, 2] 1).sum = 1 ∧
    (extractPolicyGreedy [0, 2, 2]).getD (argmaxIdx [0, 2, 2]) 0 = 1 :=
  ⟨(policy_extraction_spec [0, 2, 2] 1 2 (by norm_num) (by simp) (by norm_num)).1,
   (policy_extraction_spec [0, 2, 2] 1 2 (by norm_num) (by simp)
      (by norm_num)).2.2.2.1⟩

/-- `getD` inside a replicated block. -/
theorem getD_replicate_of_lt {α : Type} (m : ℕ) (x d : α) (i : ℕ) (hi : i < m) :
    (List.replicate m x).getD i d = x := by
  rw [List.getD_eq_getElem _ _ (by simpa using hi)]
  simp

/-- `getD` of a list extended by a replicated block, inside the block. -/
theorem getD_append_replicate {α : Type} (l : List α) (m j : ℕ) (d x : α)
    (hl : l.length ≤ j) (hj : j < l.length + m) :
    (l ++ List.replicate m x).getD j d = x := by
  rw [List.getD_append_right _ _ _ _ hl, getD_replicate_of_lt]
  omega

/-- `getD` through `List.drop`. -/
theorem getD_drop_eq {α : Type} (l : List α) (d : α) (t i : ℕ)
    (hti : t + i < l.length) : (l.drop t).getD i d = l.getD (t + i) d := by
  rw [List.getD_eq_getElem _ _ (by simp [List.length_drop]; omega),
    List.getD_eq_getElem _ _ hti]
  simp

/-- Length of a Python slice. -/
theorem pySlice_length {α : Type} (l : List α) (t k : ℕ) :
    (pySlice l t k).length = min k (l.length - t) := by
  simp [pySlice]

/-- The last entry of a slice that reaches the end of the list is the last
entry of the list. -/
theorem pySlice_last {α : Type} (l : List α) (d : α) (t k : ℕ)
    (ht : t < l.length) (hk : l.length - t ≤ k + 1) :
    (pySlice l t (k + 1)).getD ((pySlice l t (k + 1)).length - 1) d =
      l.getD (l.length - 1) d := by
  unfold pySlice
  rw [List.take_of_length_le (by simp [List.length_drop]; omega), List.length_drop,
    getD_drop_eq l d t (l.length - t - 1) (by omega)]
  congr 1
  omega

/-- A 0/1 indicator row over `List.range` sums to 1 when the hot index is in
range. -/
theorem sum_indicator_range (m a : ℕ) (ha : a < m) :
    ((List.range m).map (fun j => if a = j then (1 : ℕ) else 0)).sum = 1 := by
  induction m with
  | zero => omega
  | succ m ih =>
    rw [List.range_succ, List.map_append, List.sum_append]
    rcases Nat.lt_or_ge a m with h | h
    · rw [ih h]
      simp [Nat.ne_of_lt h]
    · have ha' : a = m := by omega
      subst ha'
      have hz : ((List.range a).map (fun j => if a = j then (1 : ℕ) else 0)).sum = 0 := by
        apply List.sum_eq_zero
        intro x hx
        rcases List.mem_map.mp hx with ⟨j, hj, rfl⟩
        simp [Nat.ne_of_gt (List.mem_range.mp hj)]
      rw [hz]
      simp

/-- The padded action list has length exactly `k`. -/
theorem paddedActions_length (pad : ℕ → ℕ) (h : GameHistory) (t k : ℕ) :
    (paddedActions pad h t k).length = k := by
  have hs := pySlice_length h.actions t k
  simp only [paddedActions, List.length_append, List.length_map, List.length_range]
  omega

/-- Every in-range entry of the padded action list is a legal action index. -/
theorem paddedActions_lt (actionSize : ℕ) (pad : ℕ → ℕ) (h : GameHistory)
    (t k i : ℕ) (hi : i < k) (hact : ∀ a ∈ h.actions, a < actionSize)
    (hpad : ∀ i, pad i < actionSize) :
    (paddedActions pad h t k).getD i actionSize < actionSize := by
  unfold paddedActions
  rcases Nat.lt_or_ge i (pySlice h.actions t k).length with hlt | hge
  · rw [List.getD_append _ _ _ _ hlt, List.getD_eq_getElem _ _ hlt]
    exact hact _ (List.drop_subset _ _ (List.take_subset _ _ (List.getElem_mem _)))
  · rw [List.getD_append_right _ _ _ _ hge]
    have hs := pySlice_length h.actions t k
    have hidx : i - (pySlice h.actions t k).length <
        k - (pySlice h.actions t k).length := by omega
    rw [List.getD_eq_getElem _ _ (by simpa using hidx)]
    simp only [List.getElem_map, List.getElem_range]
    exact hpad _

/-- **C8.** For every well-formed game history of length `n` and every
`t < n`, `buildHypotheticalSteps` returns a `k`-by-`actionSize` matrix whose
every row is a one-hot action encoding, together with value, reward and policy
target arrays each of length exactly `k + 1`; for unroll steps past the end of
the episode the last stored policy and reward are repeated and the value
target is `0` (absorbing-state convention). -/
theorem buildHypotheticalSteps_spec (actionSize : ℕ) (pad : ℕ → ℕ)
    (h : GameHistory) (t k n : ℕ) (_hlen_a : h.actions.length = n)
    (hlen_p : h.probabilities.length = n) (hlen_v : h.observed_returns.length = n)
    (hlen_r : h.rewards.length = n) (ht : t < n)
    (hact : ∀ a ∈ h.actions, a < actionSize) (hpad : ∀ i, pad i < actionSize) :
    (buildHypotheticalSteps actionSize pad h t k).1.length = k ∧
    (∀ row ∈ (buildHypotheticalSteps actionSize pad h t k).1,
      row.length = actionSize ∧ row.sum = 1 ∧ ∀ x ∈ row, x = 0 ∨ x = 1) ∧
    (buildHypotheticalSteps actionSize pad h t k).2.1.length = k + 1 ∧
    (buildHypotheticalSteps actionSize pad h t k).2.2.1.length = k + 1 ∧
    (buildHypotheticalSteps actionSize pad h t k).2.2.2.length = k + 1 ∧
    (∀ j, n - t ≤ j → j ≤ k →
      (buildHypotheticalSteps actionSize pad h t k).2.2.2.getD j [] =
        h.probabilities.getD (n - 1) [] ∧
      (buildHypotheticalSteps actionSize pad h t k).2.2.1.getD j 0 =
        h.rewards.getD (n - 1) 0 ∧
      (buildHypotheticalSteps actionSize pad h t k).2.1.getD j 0 = 0) := by
  have hsp : (pySlice h.probabilities t (k + 1)).length = min (k + 1) (n - t) := by
    rw [pySlice_length, hlen_p]
  have hsv : (pySlice h.observed_returns t (k + 1)).length = min (k + 1) (n - t) := by
    rw [pySlice_length, hlen_v]
  have hsr : (pySlice h.rewards t (k + 1)).length = min (k + 1) (n - t) := by
    rw [pySlice_length, hlen_r]
  have htt : tTruncation h t k = (k + 1) - min (k + 1) (n - t) := by
    rw [tTruncation, hsp]
  refine ⟨?_, ?_, ?_, ?_, ?_, ?_⟩
  · simp [buildHypotheticalSteps, encActions]
  · intro row hrow
    dsimp only [buildHypotheticalSteps] at hrow
    rcases List.mem_map.mp hrow with ⟨i, hi, rfl⟩
    have hik : i < k := List.mem_range.mp hi
    refine ⟨by simp, ?_, ?_⟩
    · exact sum_indicator_range actionSize _
        (paddedActions_lt actionSize pad h t k i hik hact hpad)
    · intro x hx
      rcases List.mem_map.mp hx with ⟨j, _, rfl⟩
      by_cases hij : (paddedActions pad h t k).getD i actionSize = j
      · rw [if_pos hij]
        exact Or.inr rfl
      · rw [if_neg hij]
        exact Or.inl rfl
  · dsimp only [buildHypotheticalSteps]
    rw [List.length_append, List.length_replicate, hsv, htt]
    omega
  · dsimp only [buildHypotheticalSteps]
    rw [List.length_append, List.length_replicate, hsr, htt]
    omega
  · dsimp only [buildHypotheticalSteps]
    rw [List.length_append, List.length_replicate, hsp, htt]
    omega
  · intro j hj1 hj2
    have hnt : n - t ≤ k := Nat.le_trans hj1 hj2
    have hmin : min (k + 1) (n - t) = n - t := by omega
    refine ⟨?_, ?_, ?_⟩
    · dsimp only [buildHypotheticalSteps]
      rw [getD_append_replicate _ _ _ _ _ (by rw [hsp, hmin]; exact hj1)
        (by rw [hsp, htt, hmin]; omega)]
      rw [pySlice_last h.probabilities [] t k (by omega) (by omega), hlen_p]
    · dsimp only [buildHypotheticalSteps]
      rw [getD_append_replicate _ _ _ _ _ (by rw [hsr, hmin]; exact hj1)
        (by rw [hsr, htt, hmin]; omega)]
      rw [pySlice_last h.rewards 0 t k (by omega) (by omega), hlen_r]
    · dsimp only [buildHypotheticalSteps]
      exact getD_append_replicate _ _ _ _ _ (by rw [hsv, hmin]; exact hj1)
        (by rw [hsv, htt, hmin]; omega)

/-- Instantiation of `buildHypotheticalSteps_spec` at a one-step episode
unrolled for `k = 2` hypothetical steps. -/
theorem buildHypotheticalSteps_spec_witness :
    (buildHypotheticalSteps 2 (fun _ => 1) sampleHistory 0 2).1.length = 2 ∧
    (buildHypotheticalSteps 2 (fun _ => 1) sampleHistory 0 2).2.1.length = 2 + 1 ∧
    (buildHypotheticalSteps 2 (fun _ => 1) sampleHistory 0 2).2.2.2.getD 1 [] =
      sampleHistory.probabilities.getD 0 [] ∧
    (buildHypotheticalSteps 2 (fun _ => 1) sampleHistory 0 2).2.1.getD 1 0 = 0 := by
  have hmain := buildHypotheticalSteps_spec 2 (fun _ => 1) sampleHistory 0 2 1
    rfl rfl rfl rfl (by norm_num) (by decide) (fun i => by norm_num)
  have hpe := hmain.2.2.2.2.2 1 (by norm_num) (by norm_num)
  exact ⟨hmain.1, hmain.2.2.1, hpe.1, hpe.2.2⟩

/-- Every node is an initial segment of itself. -/
theorem isInit_refl : ∀ p : List ℕ, isInit p p = true
  | [] => rfl
  | a :: p => by simp [isInit, isInit_refl p]

/-- An initial segment is no longer than the whole path. -/
theorem isInit_length_le : ∀ q p : List ℕ, isInit q p = true → q.length ≤ p.length
  | [], _, _ => Nat.zero_le _
  | a :: q, [], h => by simp [isInit] at h
  | a :: q, b :: p, h => by
    simp only [isInit, Bool.and_eq_true, beq_iff_eq] at h
    exact Nat.succ_le_succ (isInit_length_le q p h.2)

/-- A node is an initial segment of any of its extensions. -/
theorem isInit_append : ∀ q t : List ℕ, isInit q (q ++ t) = true
  | [], _ => rfl
  | a :: q, t => by simp [isInit, isInit_append q t]

/-- `isInit` is transitive. -/
theorem isInit_trans : ∀ q r p : List ℕ,
    isInit q r = true → isInit r p = true → isInit q p = true
  | [], _, _, _, _ => rfl
  | a :: q, [], _, h1, _ => by simp [isInit] at h1
  | a :: q, b :: r, [], _, h2 => by simp [isInit] at h2
  | a :: q, b :: r, c :: p, h1, h2 => by
    simp only [isInit, Bool.and_eq_true, beq_iff_eq] at h1 h2 ⊢
    obtain ⟨rfl, h1'⟩ := h1
    obtain ⟨rfl, h2'⟩ := h2
    exact ⟨rfl, isInit_trans q r p h1' h2'⟩

/-- `isInit` is antisymmetric. -/
theorem isInit_antisymm : ∀ q p : List ℕ,
    isInit q p = true → isInit p q = true → q = p
  | [], [], _, _ => rfl
  | [], b :: p, _, h2 => by simp [isInit] at h2
  | a :: q, [], h1, _ => by simp [isInit] at h1
  | a :: q, b :: p, h1, h2 => by
    simp only [isInit, Bool.and_eq_true, beq_iff_eq] at h1 h2
    rw [h1.1, isInit_antisymm q p h1.2 h2.2]

/-- A strict extension of a path is not an initial segment of it. -/
theorem not_isInit_snoc (p : List ℕ) (i : ℕ) : ¬ isInit (p ++ [i]) p = true := by
  intro h
  have := isInit_length_le _ _ h
  simp at this

/-- A proper initial segment decomposes the path as segment, next step,
remainder. -/
theorem isInit_decompose : ∀ q p : List ℕ, isInit q p = true → q ≠ p →
    ∃ j t, p = q ++ j :: t
  | [], [], _, hne => absurd rfl hne
  | [], j :: t, _, _ => ⟨j, t, rfl⟩
  | a :: q, [], h, _ => by simp [isInit] at h
  | a :: q, b :: p, h, hne => by
    simp only [isInit, Bool.and_eq_true, beq_iff_eq] at h
    obtain ⟨rfl, h2⟩ := h
    have hne' : q ≠ p := fun he => hne (by rw [he])
    obtain ⟨j, t, rfl⟩ := isInit_decompose q p h2 hne'
    exact ⟨j, t, rfl⟩

/-- Which single-step extensions of a node lie on a path through it. -/
theorem isInit_append_cons : ∀ (q : List ℕ) (i j : ℕ) (t : List ℕ),
    isInit (q ++ [i]) (q ++ j :: t) = true ↔ i = j
  | [], i, j, t => by simp [isInit]
  | a :: q, i, j, t => by
    have h := isInit_append_cons q i j t
    simp only [List.cons_append, isInit, Bool.and_eq_true, beq_iff_eq,
      beq_self_eq_true, true_and]
    exact h

/-- The leaf of a valid selection path is unexpanded. -/
theorem validFrom_leaf (P : SearchParams) (s : SearchState) :
    ∀ p q : List ℕ, validFrom P s q p = true → s.expanded (q ++ p) = false
  | [], q, h => by
    simp only [validFrom, Bool.not_eq_true'] at h
    simpa using h
  | i :: rest, q, h => by
    simp only [validFrom, Bool.and_eq_true, decide_eq_true_eq] at h
    have := validFrom_leaf P s rest (q ++ [i]) h.2
    rwa [List.append_assoc, List.singleton_append] at this

/-- Interior nodes of a valid selection path are expanded. -/
theorem validFrom_interior (P : SearchParams) (s : SearchState) :
    ∀ p q r : List ℕ, validFrom P s q p = true → isInit r p = true → r ≠ p →
      s.expanded (q ++ r) = true
  | [], _, r, _, hr, hne => by
    cases r with
    | nil => exact absurd rfl hne
    | cons a r => simp [isInit] at hr
  | i :: rest, q, r, h, hr, hne => by
    simp only [validFrom, Bool.and_eq_true, decide_eq_true_eq] at h
    cases r with
    | nil => simpa using h.1.1
    | cons b r' =>
      simp only [isInit, Bool.and_eq_true, beq_iff_eq] at hr
      obtain ⟨rfl, hr'⟩ := hr
      have hne' : r' ≠ rest := fun he => hne (by rw [he])
      have := validFrom_interior P s rest (q ++ [b]) r' h.2 hr' hne'
      rwa [List.append_assoc, List.singleton_append] at this

/-- Every step of a valid selection path picks one of the node's children. -/
theorem validFrom_arity (P : SearchParams) (s : SearchState) :
    ∀ p q r : List ℕ, ∀ j : ℕ, validFrom P s q p = true →
      isInit (r ++ [j]) p = true → j < P.arity (q ++ r)
  | [], _, r, j, _, hr => by
    have := isInit_length_le _ _ hr
    simp at this
  | i :: rest, q, r, j, h, hr => by
    simp only [validFrom, Bool.and_eq_true, decide_eq_true_eq] at h
    cases r with
    | nil =>
      have hj : j = i := by
        simpa [isInit] using hr
      subst hj
      simpa using h.1.2
    | cons b r' =>
      simp only [List.cons_append, isInit, Bool.and_eq_true, beq_iff_eq] at hr
      obtain ⟨rfl, hr'⟩ := hr
      have := validFrom_arity P s rest (q ++ [b]) r' j h.2 hr'
      rwa [List.append_assoc, List.singleton_append] at this

/-- The invariant holds before any simulation has run. -/
theorem visitInv_init (P : SearchParams) : VisitInv P initState 0 := by
  refine ⟨rfl, rfl, ?_, ?_, ?_⟩
  · intro q hq hexp
    exact absurd (List.isEmpty_iff.mp hexp) hq
  · intro q _ _
    rfl
  · intro q r hq hqr hne
    refine ⟨rfl, ?_⟩
    cases r with
    | nil =>
      cases q with
      | nil => exact absurd rfl hne
      | cons a q => simp [isInit] at hqr
    | cons a r => rfl

/-- One completed simulation along a valid selection path preserves the
invariant and increments the simulation count. -/
theorem visitInv_step (P : SearchParams) (s : SearchState) (p : List ℕ) (n : ℕ)
    (hinv : VisitInv P s n) (hp : validFrom P s [] p = true) :
    VisitInv P (simulate P s p) (n + 1) := by
  obtain ⟨hroot, hrootexp, hsum, hunexp, hbelow⟩ := hinv
  have hleaf : s.expanded p = false := by
    have := validFrom_leaf P s p [] hp
    simpa using this
  have hmid : ∀ r, isInit r p = true → r ≠ p → s.expanded r = true := by
    intro r h1 h2
    have := validFrom_interior P s p [] r hp h1 h2
    simpa using this
  have harity : ∀ r j, isInit (r ++ [j]) p = true → j < P.arity r := by
    intro r j h1
    have := validFrom_arity P s p [] r j hp h1
    simpa using this
  have hpne : p ≠ [] := by
    intro he
    subst he
    rw [hrootexp] at hleaf
    exact Bool.noConfusion hleaf
  have hexpanded_of : ∀ q, (simulate P s p).expanded q = false →
      ¬(q = p ∧ P.terminal p = false) ∧ s.expanded q = false := by
    intro q hq
    by_cases hc : q = p ∧ P.terminal p = false
    · exfalso
      have : (simulate P s p).expanded q = true := by
        simp only [simulate]
        rw [if_pos hc]
      rw [this] at hq
      exact Bool.noConfusion hq
    · refine ⟨hc, ?_⟩
      have : (simulate P s p).expanded q = s.expanded q := by
        simp only [simulate]
        rw [if_neg hc]
      rwa [this] at hq
  refine ⟨?_, ?_, ?_, ?_, ?_⟩
  · -- root visit count
    simp only [simulate]
    rw [if_pos (show isInit [] p = true from rfl), hroot]
  · -- root stays expanded
    simp only [simulate]
    by_cases hc : ([] : List ℕ) = p ∧ P.terminal p = false
    · rw [if_pos hc]
    · rw [if_neg hc]
      exact hrootexp
  · -- child-sum invariant at expanded non-root nodes
    intro q hqne hexp'
    by_cases hq : q = p
    · subst hq
      have hterm : P.terminal q = false := by
        cases hPt : P.terminal q
        · rfl
        · exfalso
          have : (simulate P s q).expanded q = s.expanded q := by
            simp only [simulate]
            rw [if_neg (fun hcon => by rw [hPt] at hcon; exact Bool.noConfusion hcon.2)]
          rw [this, hleaf] at hexp'
          exact Bool.noConfusion hexp'
      have hv0 : s.visit q = 0 := hunexp q hleaf hterm
      have hvq : (simulate P s q).visit q = 1 := by
        simp only [simulate]
        rw [if_pos (isInit_refl q), hv0]
      have hch : ∀ i, (simulate P s q).visit (q ++ [i]) = 0 := by
        intro i
        have hne_ : q ≠ q ++ [i] := by
          intro he
          have := congrArg List.length he
          simp at this
        have h0 := hbelow q (q ++ [i]) hleaf (isInit_append q [i]) hne_
        simp only [simulate]
        rw [if_neg (not_isInit_snoc q i), h0.1]
      rw [hvq, Finset.sum_congr rfl (fun i _ => hch i), Finset.sum_const_zero]
      omega
    · have hexpq : s.expanded q = true := by
        have h1 : (simulate P s p).expanded q = s.expanded q := by
          simp only [simulate]
          rw [if_neg (fun hcon => hq hcon.1)]
        rwa [h1] at hexp'
      by_cases hqp : isInit q p = true
      · obtain ⟨j, tl, rfl⟩ := isInit_decompose q p hqp hq
        have hj : j < P.arity q := harity q j ((isInit_append_cons q j j tl).mpr rfl)
        have hvq : (simulate P s (q ++ j :: tl)).visit q = s.visit q + 1 := by
          simp only [simulate]
          rw [if_pos hqp]
        have hch : ∀ i, (simulate P s (q ++ j :: tl)).visit (q ++ [i]) =
            s.visit (q ++ [i]) + (if i = j then 1 else 0) := by
          intro i
          simp only [simulate]
          by_cases hij : i = j
          · subst hij
            rw [if_pos ((isInit_append_cons q i i tl).mpr rfl), if_pos rfl]
          · rw [if_neg (fun hcon => hij ((isInit_append_cons q i j tl).mp hcon)),
              if_neg hij, Nat.add_zero]
        rw [hvq, Finset.sum_congr rfl (fun i _ => hch i), Finset.sum_add_distrib,
          Finset.sum_ite_eq' (Finset.range (P.arity q)) j (fun _ => 1),
          if_pos (Finset.mem_range.mpr hj)]
        have hold := hsum q hqne hexpq
        omega
      · have hvq : (simulate P s p).visit q = s.visit q := by
          simp only [simulate]
          rw [if_neg hqp]
        have hch : ∀ i, (simulate P s p).visit (q ++ [i]) = s.visit (q ++ [i]) := by
          intro i
          simp only [simulate]
          rw [if_neg (fun hcon =>
            hqp (isInit_trans q (q ++ [i]) p (isInit_append q [i]) hcon))]
        rw [hvq, Finset.sum_congr rfl (fun i _ => hch i)]
        exact hsum q hqne hexpq
  · -- non-terminal unexpanded nodes are unvisited
    intro q hexp' hterm
    obtain ⟨hc, hsq⟩ := hexpanded_of q hexp'
    have hqnep : q ≠ p := by
      intro he
      subst he
      exact hc ⟨rfl, hterm⟩
    have hni : ¬ isInit q p = true := by
      intro hi
      have := hmid q hi hqnep
      rw [hsq] at this
      exact Bool.noConfusion this
    simp only [simulate]
    rw [if_neg hni]
    exact hunexp q hsq hterm
  · -- nothing below an unexpanded node is ever touched
    intro q r hexp' hqr hne
    obtain ⟨hc, hsq⟩ := hexpanded_of q hexp'
    have hbase := hbelow q r hsq hqr hne
    by_cases hqp : q = p
    · subst hqp
      have hrnp : r ≠ q := fun he => hne he.symm
      have hni : ¬ isInit r q = true := by
        intro hi
        exact hrnp (isInit_antisymm r q hi hqr)
      constructor
      · simp only [simulate]
        rw [if_neg hni]
        exact hbase.1
      · simp only [simulate]
        rw [if_neg (fun hcon => hrnp hcon.1)]
        exact hbase.2
    · have hrnp : r ≠ p := by
        intro he
        subst he
        have := hmid q hqr hqp
        rw [hsq] at this
        exact Bool.noConfusion this
      have hni : ¬ isInit r p = true := by
        intro hi
        have hqip : isInit q p = true := isInit_trans q r p hqr hi
        have := hmid q hqip hqp
        rw [hsq] at this
        exact Bool.noConfusion this
      constructor
      · simp only [simulate]
        rw [if_neg hni]
        exact hbase.1
      · simp only [simulate]
        rw [if_neg (fun hcon => hrnp hcon.1)]
        exact hbase.2

/-- The invariant is preserved by any run of completed simulations. -/
theorem visitInv_run (P : SearchParams) (ps : List (List ℕ)) (s s' : SearchState)
    (hrun : SearchRun P s ps s') :
    ∀ n, VisitInv P s n → VisitInv P s' (n + ps.length) := by
  induction hrun with
  | nil s =>
    intro n h
    simpa using h
  | cons s p ps s' hp hrun ih =>
    intro n h
    have h1 := visitInv_step P s p n h hp
    have hlen : n + (p :: ps).length = n + 1 + ps.length := by
      simp only [List.length_cons]
      omega
    rw [hlen]
    exact ih (n + 1) h1

/-- **C2.** After every completed simulation of a single search call, every
expanded node's visit count equals 1 plus the sum of the visit counts of its
children, except the root, whose visit count equals the number of simulations
run from it so far. -/
theorem visit_count_invariant (P : SearchParams) (ps : List (List ℕ))
    (s' : SearchState) (hrun : SearchRun P initState ps s') :
    s'.visit [] = ps.length ∧
    ∀ q : List ℕ, q ≠ [] → s'.expanded q = true →
      s'.visit q = 1 + ∑ i in Finset.range (P.arity q), s'.visit (q ++ [i]) := by
  have h := visitInv_run P ps initState s' hrun 0 (visitInv_init P)
  exact ⟨by simpa using h.1, h.2.2.1⟩

/-- Instantiation of `visit_count_invariant` after one simulation of a binary
search tree: the root has one visit and the newly expanded child satisfies
the child-sum equation. -/
theorem visit_count_invariant_witness :
    (simulate binaryParams initState [0]).visit [] = 1 ∧
    (simulate binaryParams initState [0]).visit [0] =
      1 + ∑ i in Finset.range (binaryParams.arity [0]),
        (simulate binaryParams initState [0]).visit ([0] ++ [i]) := by
  have h := visit_count_invariant binaryParams [[0]]
    (simulate binaryParams initState [0])
    (SearchRun.cons initState [0] [] (simulate binaryParams initState [0])
      (by decide) (SearchRun.nil (simulate binaryParams initState [0])))
  exact ⟨h.1, h.2 [0] (by decide) (by decide)⟩
